import Mathlib

/-!
Verification of the `dmzj_txt2pdf` batch TXT→PDF conversion pipeline
(`src/dmzj_txt2pdf.py`) against its natural-language specification.

The Python source is shallowly embedded:

* strings are `List Char` (Python compares strings by code point, which the
  `lexLe` order below reproduces);
* file-system paths are `List String` of path components;
* the external collaborators (Python codec machinery, `chardet`, reportlab's
  `stringWidth`, the PDF page containers) are parameters of the embedding,
  never stubbed constants, so every theorem quantifies over their behaviour;
* thread-pool nondeterminism (`as_completed` order) is an explicit input:
  the list `completed` of fragments in the order their conversions finished.
-/

/-! ## Python string primitives -/

/-- The set of characters Python's `str.isspace` accepts (ASCII whitespace,
the C0 separators 0x1c–0x1f, NEL, NBSP and the Unicode space/separator
code points).  Used to model `str.strip()`-emptiness tests. -/
def isPySpace (c : Char) : Bool :=
  (0x9 ≤ c.toNat && c.toNat ≤ 0xd) || c.toNat == 0x20 ||
  (0x1c ≤ c.toNat && c.toNat ≤ 0x1f) || c.toNat == 0x85 || c.toNat == 0xa0 ||
  c.toNat == 0x1680 || (0x2000 ≤ c.toNat && c.toNat ≤ 0x200a) ||
  c.toNat == 0x2028 || c.toNat == 0x2029 || c.toNat == 0x202f ||
  c.toNat == 0x205f || c.toNat == 0x3000

/-- The line-boundary characters of Python's `str.splitlines`. -/
def isLineBreak (c : Char) : Bool :=
  c.toNat == 0xa || c.toNat == 0xd || c.toNat == 0xb || c.toNat == 0xc ||
  (0x1c ≤ c.toNat && c.toNat ≤ 0x1e) || c.toNat == 0x85 ||
  c.toNat == 0x2028 || c.toNat == 0x2029

theorem isPySpace_of_isLineBreak {c : Char} (h : isLineBreak c = true) :
    isPySpace c = true := by
  simp only [isLineBreak, Bool.or_eq_true, beq_iff_eq, Bool.and_eq_true,
    decide_eq_true_eq] at h
  simp only [isPySpace, Bool.or_eq_true, beq_iff_eq, Bool.and_eq_true,
    decide_eq_true_eq]
  omega

/-- Python string `≤` (code-point lexicographic order) on `List Char`. -/
def lexLe : List Char → List Char → Bool
  | [], _ => true
  | _ :: _, [] => false
  | a :: as, b :: bs => if a = b then lexLe as bs else decide (a.toNat < b.toNat)

theorem char_eq_of_toNat_eq {a b : Char} (h : a.toNat = b.toNat) : a = b := by
  have ha := Char.ofNat_toNat a
  have hb := Char.ofNat_toNat b
  rw [← ha, ← hb, h]

theorem lexLe_refl (l : List Char) : lexLe l l = true := by
  induction l with
  | nil => rfl
  | cons a as ih => simp [lexLe, ih]

theorem lexLe_total (a b : List Char) : lexLe a b = true ∨ lexLe b a = true := by
  induction a generalizing b with
  | nil => left; rfl
  | cons x xs ih =>
    cases b with
    | nil => right; rfl
    | cons y ys =>
      by_cases hxy : x = y
      · subst hxy
        rcases ih ys with h | h
        · left; simp [lexLe, h]
        · right; simp [lexLe, h]
      · have hne : ¬ x.toNat = y.toNat := fun h => hxy (char_eq_of_toNat_eq h)
        rcases Nat.lt_or_ge x.toNat y.toNat with h | h
        · left; simp [lexLe, hxy, h]
        · right
          have hyx : y.toNat < x.toNat := by omega
          have hne' : ¬ y = x := fun h => hxy h.symm
          simp [lexLe, hne', hyx]

theorem lexLe_antisymm {a b : List Char} (h1 : lexLe a b = true)
    (h2 : lexLe b a = true) : a = b := by
  induction a generalizing b with
  | nil =>
    cases b with
    | nil => rfl
    | cons y ys => simp [lexLe] at h2
  | cons x xs ih =>
    cases b with
    | nil => simp [lexLe] at h1
    | cons y ys =>
      by_cases hxy : x = y
      · subst hxy
        simp only [lexLe, if_pos rfl] at h1 h2
        rw [ih h1 h2]
      · have hne' : ¬ y = x := fun h => hxy h.symm
        simp only [lexLe, if_neg hxy, decide_eq_true_eq] at h1
        simp only [lexLe, if_neg hne', decide_eq_true_eq] at h2
        omega

theorem lexLe_trans {a b c : List Char} (h1 : lexLe a b = true)
    (h2 : lexLe b c = true) : lexLe a c = true := by
  induction a generalizing b c with
  | nil => rfl
  | cons x xs ih =>
    cases b with
    | nil => simp [lexLe] at h1
    | cons y ys =>
      cases c with
      | nil => simp [lexLe] at h2
      | cons z zs =>
        by_cases hxy : x = y
        · subst hxy
          simp only [lexLe, if_pos rfl] at h1
          by_cases hxz : x = z
          · subst hxz
            simp only [lexLe, if_pos rfl] at h2 ⊢
            exact ih h1 h2
          · simp only [lexLe, if_neg hxz, decide_eq_true_eq] at h2 ⊢
            exact h2
        · simp only [lexLe, if_neg hxy, decide_eq_true_eq] at h1
          by_cases hyz : y = z
          · subst hyz
            by_cases hxz : x = y
            · exact absurd hxz hxy
            · simp only [lexLe, if_neg hxz, decide_eq_true_eq]
              exact h1
          · simp only [lexLe, if_neg hyz, decide_eq_true_eq] at h2
            have hxz : ¬ x = z := by
              intro h; subst h
              have : x.toNat < x.toNat := by omega
              omega
            simp only [lexLe, if_neg hxz, decide_eq_true_eq]
            omega

/-! ## The grouping-key function (`_folder_key`)

`_folder_key(p, depth) = "_".join(p.parent.name.split("_")[:depth])`.
`splitU` is Python's `str.split("_")` (keeps empty segments, `"".split("_")
= [""]`); `joinU` is `"_".join`. -/

/-- Python `name.split("_")`. -/
def splitU : List Char → List (List Char)
  | [] => [[]]
  | c :: rest =>
    if c = '_' then [] :: splitU rest
    else
      match splitU rest with
      | [] => [[c]]
      | l :: ls => (c :: l) :: ls

/-- Python `"_".join(segs)`. -/
def joinU : List (List Char) → List Char
  | [] => []
  | [l] => l
  | l :: ls => l ++ '_' :: joinU ls

/-- `_folder_key` applied to a parent-directory name:
`"_".join(name.split("_")[:depth])`. -/
def folderKey (depth : Nat) (name : List Char) : List Char :=
  joinU ((splitU name).take depth)

theorem splitU_ne_nil (s : List Char) : splitU s ≠ [] := by
  cases s with
  | nil => simp [splitU]
  | cons c rest =>
    by_cases h : c = '_'
    · simp [splitU, h]
    · simp only [splitU, if_neg h]
      cases hr : splitU rest with
      | nil => simp
      | cons l ls => simp

theorem splitU_no_underscore {s : List Char} {l : List Char}
    (hl : l ∈ splitU s) : '_' ∉ l := by
  induction s generalizing l with
  | nil =>
    simp [splitU] at hl
    subst hl; simp
  | cons c rest ih =>
    by_cases h : c = '_'
    · simp only [splitU, if_pos h, List.mem_cons] at hl
      rcases hl with hl | hl
      · subst hl; simp
      · exact ih hl
    · simp only [splitU, if_neg h] at hl
      cases hr : splitU rest with
      | nil => exact absurd hr (splitU_ne_nil rest)
      | cons l0 ls =>
        rw [hr] at hl
        simp only [List.mem_cons] at hl
        rcases hl with hl | hl
        · subst hl
          intro hmem
          simp only [List.mem_cons] at hmem
          rcases hmem with hmem | hmem
          · exact h hmem.symm
          · exact ih (hr ▸ List.mem_cons_self l0 ls) hmem
        · exact ih (hr ▸ List.mem_cons_of_mem l0 hl)

theorem joinU_splitU (s : List Char) : joinU (splitU s) = s := by
  induction s with
  | nil => rfl
  | cons c rest ih =>
    by_cases h : c = '_'
    · subst h
      simp only [splitU, if_pos rfl]
      cases hr : splitU rest with
      | nil => exact absurd hr (splitU_ne_nil rest)
      | cons l ls =>
        rw [hr] at ih
        simp only [joinU, List.nil_append]
        rw [ih]
    · simp only [splitU, if_neg h]
      cases hr : splitU rest with
      | nil => exact absurd hr (splitU_ne_nil rest)
      | cons l ls =>
        rw [hr] at ih
        cases ls with
        | nil =>
          simp only [joinU] at ih ⊢
          rw [ih]
        | cons l2 ls2 =>
          simp only [joinU, List.cons_append] at ih ⊢
          rw [ih]

/-! ## File-system paths

A path is its list of components (e.g. `root/novel_1/ch.txt` is
`["root", "novel_1", "ch.txt"]`).  `parentName` is Python's
`p.parent.name`: the component before the file name. -/

/-- A file-system path, as its list of components. -/
abbrev FsPath := List String

/-- `p.parent.name` for a component path. -/
def parentName (p : FsPath) : String := p.dropLast.getLastD ""

/-- Key of a fragment path at a group level: `_folder_key(p, depth)`. -/
def fragKey (depth : Nat) (p : FsPath) : List Char :=
  folderKey depth (parentName p).data

theorem takeWhile_ne_of_not_mem {l : List Char}
    (h : '_' ∉ l) : l.takeWhile (fun c => c != '_') = l := by
  induction l with
  | nil => rfl
  | cons c cs ih =>
    simp only [List.mem_cons, not_or] at h
    have hc : (c != '_') = true := by
      simp only [bne_iff_ne, ne_eq]
      exact fun hh => h.1 hh.symm
    simp [List.takeWhile, hc, ih h.2]

theorem takeWhile_ne_append {l t : List Char} (h : '_' ∉ l) :
    (l ++ '_' :: t).takeWhile (fun c => c != '_') = l := by
  induction l with
  | nil => simp [List.takeWhile]
  | cons c cs ih =>
    simp only [List.mem_cons, not_or] at h
    have hc : (c != '_') = true := by
      simp only [bne_iff_ne, ne_eq]
      exact fun hh => h.1 hh.symm
    have : (c :: cs) ++ '_' :: t = c :: (cs ++ '_' :: t) := rfl
    rw [this, List.takeWhile, hc, ih h.2]

/-- The depth-1 key is the depth-2 key truncated at its first underscore. -/
theorem folderKey_one_eq (name : List Char) :
    folderKey 1 name = (folderKey 2 name).takeWhile (fun c => c != '_') := by
  cases hs : splitU name with
  | nil => exact absurd hs (splitU_ne_nil name)
  | cons s1 rest =>
    have hs1 : '_' ∉ s1 := splitU_no_underscore (hs ▸ List.mem_cons_self s1 rest)
    cases rest with
    | nil =>
      simp only [folderKey, hs, List.take, joinU]
      exact (takeWhile_ne_of_not_mem hs1).symm
    | cons s2 rest2 =>
      simp only [folderKey, hs, List.take, joinU]
      exact (takeWhile_ne_append hs1).symm

/-- C8: equal keys at group level 2 force equal keys at group level 1, so
raising the level from 1 to 2 can only split merge groups, never fuse
fragments separated at level 1. -/
theorem groupKey_level2_refines_level1 (p q : FsPath)
    (h : fragKey 2 p = fragKey 2 q) : fragKey 1 p = fragKey 1 q := by
  unfold fragKey at h ⊢
  rw [folderKey_one_eq, folderKey_one_eq, h]

theorem groupKey_level2_refines_level1_witness :
    fragKey 2 ["r", "book_vol", "a.txt"] = fragKey 2 ["r", "book_vol", "b.txt"] ∧
    fragKey 1 ["r", "book_vol", "a.txt"] = fragKey 1 ["r", "book_vol", "b.txt"] :=
  ⟨by decide,
   groupKey_level2_refines_level1 ["r", "book_vol", "a.txt"]
     ["r", "book_vol", "b.txt"] (by decide)⟩

/-- C10: a parent-directory name with fewer underscore-delimited segments
than the group level is returned unchanged by the key function — such
fragments are grouped by their full folder name, not by an empty key. -/
theorem folderKey_short_name_unchanged (p : FsPath) (depth : Nat)
    (hd : depth = 1 ∨ depth = 2)
    (h : (splitU (parentName p).data).length < depth) :
    fragKey depth p = (parentName p).data := by
  unfold fragKey folderKey
  rw [List.take_of_length_le (Nat.le_of_lt h)]
  exact joinU_splitU _

theorem folderKey_short_name_unchanged_witness :
    ((2 : Nat) = 1 ∨ (2 : Nat) = 2) ∧
    (splitU (parentName ["r", "novel", "ch.txt"]).data).length < 2 ∧
    fragKey 2 ["r", "novel", "ch.txt"] = (parentName ["r", "novel", "ch.txt"]).data :=
  ⟨Or.inr rfl, by decide,
   folderKey_short_name_unchanged ["r", "novel", "ch.txt"] 2 (Or.inr rfl) (by decide)⟩

/-! ## `str.splitlines`

Python's `splitlines` splits on the boundary characters of `isLineBreak`,
treats `"\r\n"` as a single boundary, and yields no trailing empty line for
a trailing boundary.  `normCrlf` first collapses `"\r\n"` into `"\n"`, then
`splitBreaks` splits on single boundary characters; the composition is
extensionally Python's `splitlines`. -/

/-- Collapse every `"\r\n"` pair into `"\n"`. -/
def normCrlf : List Char → List Char
  | [] => []
  | '\r' :: '\n' :: rest => '\n' :: normCrlf rest
  | c :: rest => c :: normCrlf rest

/-- Split on single line-boundary characters, with no trailing empty line. -/
def splitBreaks : List Char → List (List Char)
  | [] => []
  | c :: rest =>
    if isLineBreak c then [] :: splitBreaks rest
    else
      match splitBreaks rest with
      | [] => [[c]]
      | l :: ls => (c :: l) :: ls

/-- Python `txt.splitlines()`. -/
def pySplitlines (l : List Char) : List (List Char) :=
  splitBreaks (normCrlf l)

/-! ## The Paginator (`_wrap_draw`)

`WrapState` is the canvas: finished pages, the drawn lines of the current
page, and the vertical cursor `y`.  Width measurement is the external
collaborator `stringWidth`; the embedding takes the whole comparison
`stringWidth(buf + ch) > wmax` as a parameter `ex : List Char → Bool`, so
every theorem holds for arbitrary font metrics. -/

/-- The canvas state of `_wrap_draw`: emitted pages (each a list of drawn
line contents in draw order), the current page's drawn lines, and the
vertical cursor. -/
structure WrapState where
  pages : List (List (List Char))
  cur : List (List Char)
  y : Int
deriving DecidableEq

/-- `y -= lh; if y < bottom: newpage()` — the vertical advance plus
page-break check after every drawn line or blank paragraph. -/
def advanceY (y0 lh bottom : Int) (s : WrapState) : WrapState :=
  let s' : WrapState := { s with y := s.y - lh }
  if s'.y < bottom then { pages := s'.pages ++ [s'.cur], cur := [], y := y0 }
  else s'

/-- `c.drawString(x0, y, buf)` followed by the advance/page-break check. -/
def drawLine (y0 lh bottom : Int) (buf : List Char) (s : WrapState) : WrapState :=
  advanceY y0 lh bottom { s with cur := s.cur ++ [buf] }

/-- The greedy character loop of `_wrap_draw` over one paragraph, plus the
final flush of the remaining buffer. -/
def paraLoop (ex : List Char → Bool) (y0 lh bottom : Int) :
    List Char → List Char → WrapState → WrapState
  | buf, [], s => drawLine y0 lh bottom buf s
  | buf, ch :: rest, s =>
    if ex (buf ++ [ch]) then
      paraLoop ex y0 lh bottom [ch] rest (drawLine y0 lh bottom buf s)
    else
      paraLoop ex y0 lh bottom (buf ++ [ch]) rest s

/-- One iteration of `for para in txt.splitlines() or [" "]`. -/
def paraStep (ex : List Char → Bool) (y0 lh bottom : Int)
    (s : WrapState) (para : List Char) : WrapState :=
  if para.all isPySpace then advanceY y0 lh bottom s
  else paraLoop ex y0 lh bottom [] para s

/-- `_wrap_draw(c, txt, …)` on a fresh canvas: iterate
`for para in txt.splitlines() or [" "]`. -/
def wrapDraw (ex : List Char → Bool) (y0 lh bottom : Int)
    (txt : List Char) : WrapState :=
  (if (pySplitlines txt).isEmpty then [[' ']] else pySplitlines txt).foldl
    (paraStep ex y0 lh bottom) ⟨[], [], y0⟩

/-- `c.save()`: the in-progress page is emitted, so the finished document
is the emitted pages plus the current one. -/
def finishDoc (s : WrapState) : List (List (List Char)) :=
  s.pages ++ [s.cur]

/-- All drawn line contents of a document, in page-then-draw order. -/
def docLines (d : List (List (List Char))) : List (List Char) := d.flatten

/-- All drawn characters of the canvas so far, in draw order. -/
def stContent (s : WrapState) : List Char :=
  (s.pages.flatten ++ s.cur).flatten

theorem stContent_advanceY (y0 lh bottom : Int) (s : WrapState) :
    stContent (advanceY y0 lh bottom s) = stContent s := by
  unfold advanceY
  by_cases h : s.y - lh < bottom
  · simp [stContent, h]
  · simp [stContent, h]

theorem stContent_drawLine (y0 lh bottom : Int) (buf : List Char)
    (s : WrapState) :
    stContent (drawLine y0 lh bottom buf s) = stContent s ++ buf := by
  unfold drawLine
  rw [stContent_advanceY]
  unfold stContent
  simp

theorem stContent_paraLoop (ex : List Char → Bool) (y0 lh bottom : Int)
    (rest buf : List Char) (s : WrapState) :
    stContent (paraLoop ex y0 lh bottom buf rest s) =
      stContent s ++ buf ++ rest := by
  induction rest generalizing buf s with
  | nil => simp [paraLoop, stContent_drawLine]
  | cons ch rest ih =>
    unfold paraLoop
    split
    · rw [ih, stContent_drawLine]
      simp
    · rw [ih]
      simp

/-- Contribution of one paragraph to the drawn content: blank paragraphs
draw nothing, others are drawn in full. -/
def paraContribution (para : List Char) : List Char :=
  if para.all isPySpace then [] else para

theorem stContent_paraStep (ex : List Char → Bool) (y0 lh bottom : Int)
    (s : WrapState) (para : List Char) :
    stContent (paraStep ex y0 lh bottom s para) =
      stContent s ++ paraContribution para := by
  unfold paraStep paraContribution
  split
  · rw [stContent_advanceY]; simp
  · rw [stContent_paraLoop]; simp

theorem stContent_foldl (ex : List Char → Bool) (y0 lh bottom : Int)
    (paras : List (List Char)) (s : WrapState) :
    stContent (paras.foldl (paraStep ex y0 lh bottom) s) =
      stContent s ++ (paras.map paraContribution).flatten := by
  induction paras generalizing s with
  | nil => simp
  | cons p ps ih =>
    simp only [List.foldl_cons, List.map_cons, List.flatten_cons]
    rw [ih, stContent_paraStep]
    simp

theorem normCrlf_eq_nil_iff (l : List Char) : normCrlf l = [] ↔ l = [] := by
  constructor
  · intro h
    cases l with
    | nil => rfl
    | cons c rest =>
      cases rest with
      | nil =>
        unfold normCrlf at h
        split at h <;> simp_all
      | cons c2 rest2 =>
        unfold normCrlf at h
        split at h <;> simp_all
  · intro h; subst h; rfl

theorem splitBreaks_eq_nil_iff (m : List Char) : splitBreaks m = [] ↔ m = [] := by
  constructor
  · intro h
    cases m with
    | nil => rfl
    | cons c rest =>
      unfold splitBreaks at h
      split at h
      · simp at h
      · revert h
        cases splitBreaks rest <;> simp
  · intro h; subst h; rfl

theorem filter_nonspace_flatten_splitBreaks (m : List Char) :
    (splitBreaks m).flatten.filter (fun c => !isPySpace c) =
      m.filter (fun c => !isPySpace c) := by
  induction m with
  | nil => rfl
  | cons c rest ih =>
    by_cases hb : isLineBreak c = true
    · have hsp : isPySpace c = true := isPySpace_of_isLineBreak hb
      simp only [splitBreaks, if_pos hb, List.flatten_cons, List.nil_append]
      rw [ih, List.filter_cons]
      simp [hsp]
    · simp only [splitBreaks, if_neg hb]
      cases hr : splitBreaks rest with
      | nil =>
        have : rest = [] := (splitBreaks_eq_nil_iff rest).mp hr
        subst this
        simp
      | cons l ls =>
        rw [hr] at ih
        simp only [List.flatten_cons] at ih ⊢
        rw [List.cons_append, List.filter_cons, List.filter_cons]
        rw [ih]

theorem filter_nonspace_normCrlf (l : List Char) :
    (normCrlf l).filter (fun c => !isPySpace c) =
      l.filter (fun c => !isPySpace c) := by
  induction l using normCrlf.induct with
  | case1 => rfl
  | case2 rest ih =>
    simp only [normCrlf]
    rw [List.filter_cons, List.filter_cons, List.filter_cons]
    have hr : isPySpace '\r' = true := by decide
    have hn : isPySpace '\n' = true := by decide
    simp [hr, hn, ih]
  | case3 c rest hne ih =>
    simp only [normCrlf]
    rw [List.filter_cons, List.filter_cons]
    rw [ih]

theorem filter_nonspace_paraContribution (para : List Char) :
    (paraContribution para).filter (fun c => !isPySpace c) =
      para.filter (fun c => !isPySpace c) := by
  unfold paraContribution
  split
  · rename_i h
    simp only [List.all_eq_true] at h
    rw [List.filter_nil, eq_comm, List.filter_eq_nil_iff]
    intro c hc
    simp [h c hc]
  · rfl

/-- C6: the Paginator never drops a non-whitespace character — for any
width-comparison behaviour and any geometry, the concatenated drawn line
contents of the finished document carry exactly the non-whitespace
characters of the input text, in order. -/
theorem paginator_preserves_nonspace (ex : List Char → Bool)
    (y0 lh bottom : Int) (txt : List Char) :
    (docLines (finishDoc (wrapDraw ex y0 lh bottom txt))).flatten.filter
        (fun c => !isPySpace c) =
      txt.filter (fun c => !isPySpace c) := by
  have hdoc : ∀ s : WrapState, (docLines (finishDoc s)).flatten = stContent s := by
    intro s
    simp [docLines, finishDoc, stContent]
  rw [hdoc]
  by_cases hemp : (pySplitlines txt).isEmpty
  · have h0 : pySplitlines txt = [] := List.isEmpty_iff.mp hemp
    have htxt : txt = [] := by
      have := (splitBreaks_eq_nil_iff (normCrlf txt)).mp h0
      exact (normCrlf_eq_nil_iff txt).mp this
    subst htxt
    rw [show wrapDraw ex y0 lh bottom [] =
          advanceY y0 lh bottom ⟨[], [], y0⟩ from rfl]
    rw [stContent_advanceY]
    rfl
  · unfold wrapDraw
    rw [if_neg hemp]
    rw [stContent_foldl]
    have hinit : stContent ⟨[], [], y0⟩ = [] := rfl
    rw [hinit, List.nil_append]
    have hmapfilter :
        ((pySplitlines txt).map paraContribution).flatten.filter
            (fun c => !isPySpace c) =
          (pySplitlines txt).flatten.filter (fun c => !isPySpace c) := by
      induction pySplitlines txt with
      | nil => rfl
      | cons p ps ih =>
        simp only [List.map_cons, List.flatten_cons, List.filter_append]
        rw [ih, filter_nonspace_paraContribution]
    rw [hmapfilter]
    unfold pySplitlines
    rw [filter_nonspace_flatten_splitBreaks, filter_nonspace_normCrlf]

/-- C7 counterexample: on the entirely empty input the code takes the
blank-paragraph branch for the substituted `" "` paragraph, so the finished
document contains no drawn line at all — not a drawn blank line. -/
theorem empty_input_draws_no_line :
    docLines (finishDoc (wrapDraw (fun _ => false) 800 13 42 [])) = [] := by
  decide

/-- C7 amended: for every geometry and width behaviour, the entirely empty
input yields a document with no drawn line; the run performs exactly one
blank vertical advance (with its page-break check) and nothing else. -/
theorem empty_input_single_blank_advance (ex : List Char → Bool)
    (y0 lh bottom : Int) :
    docLines (finishDoc (wrapDraw ex y0 lh bottom [])) = [] ∧
      wrapDraw ex y0 lh bottom [] =
        advanceY y0 lh bottom ⟨[], [], y0⟩ := by
  have hw : wrapDraw ex y0 lh bottom [] =
      advanceY y0 lh bottom ⟨[], [], y0⟩ := rfl
  refine ⟨?_, hw⟩
  rw [hw]
  unfold advanceY
  by_cases h : y0 - lh < bottom
  · simp [docLines, finishDoc, h]
  · simp [docLines, finishDoc, h]

/-! ## Stable sort and consecutive grouping (merge stage plumbing)

`sorted(xs, key=...)` in Python is a stable sort by key; insertion sort by
key is extensionally the same list (stable sorts agree).  `groupByKey` is
`itertools.groupby(xs, key=...)`: it groups *consecutive* equal keys. -/

/-- Stable insertion of `x` into a key-sorted list: `x` goes before the
first strictly greater key — and before no equal key, preserving the
original relative order of equal keys. -/
def insertByKey {α : Type} (key : α → List Char) (x : α) : List α → List α
  | [] => [x]
  | y :: ys =>
    if lexLe (key x) (key y) then x :: y :: ys
    else y :: insertByKey key x ys

/-- Stable sort by key (extensionally Python's `sorted(·, key=…)`). -/
def sortByKey {α : Type} (key : α → List Char) : List α → List α
  | [] => []
  | x :: xs => insertByKey key x (sortByKey key xs)

/-- `itertools.groupby(l, key)`: consecutive runs of equal key. -/
def groupByKey {α : Type} (key : α → List Char) :
    List α → List (List Char × List α)
  | [] => []
  | x :: xs =>
    match groupByKey key xs with
    | [] => [(key x, [x])]
    | (k, g) :: rest =>
      if key x = k then (k, x :: g) :: rest
      else (key x, [x]) :: (k, g) :: rest

/-- Keys are sorted (`Pairwise`, so every earlier key ≤ every later key). -/
def KeySorted {α : Type} (key : α → List Char) (l : List α) : Prop :=
  List.Pairwise (fun a b => lexLe (key a) (key b) = true) l

theorem insertByKey_perm {α : Type} (key : α → List Char) (x : α)
    (l : List α) : List.Perm (insertByKey key x l) (x :: l) := by
  induction l with
  | nil => exact List.Perm.refl _
  | cons y ys ih =>
    unfold insertByKey
    split
    · exact List.Perm.refl _
    · exact ((ih.cons y).trans (List.Perm.swap x y ys))

theorem sortByKey_perm {α : Type} (key : α → List Char) (l : List α) :
    List.Perm (sortByKey key l) l := by
  induction l with
  | nil => exact List.Perm.refl _
  | cons x xs ih =>
    exact (insertByKey_perm key x (sortByKey key xs)).trans (ih.cons x)


theorem filter_key_insertByKey {α : Type} (key : α → List Char) (k : List Char)
    (x : α) (l : List α) :
    (insertByKey key x l).filter (fun a => decide (key a = k)) =
      (x :: l).filter (fun a => decide (key a = k)) := by
  induction l with
  | nil => rfl
  | cons y ys ih =>
    unfold insertByKey
    split
    · rfl
    · rename_i hle
      by_cases hx : key x = k
      · have hy : ¬ key y = k := fun hy =>
          hle (by rw [hx, hy]; exact lexLe_refl k)
        simp only [List.filter_cons, ih, decide_eq_true hx, decide_eq_false hy]
        simp
      · simp only [List.filter_cons, ih, decide_eq_false hx]
        simp

/-- Stability of the sort on key-filters: for every key, the elements with
that key appear in the sorted list in their original relative order. -/
theorem filter_key_sortByKey {α : Type} (key : α → List Char) (k : List Char)
    (l : List α) :
    (sortByKey key l).filter (fun a => decide (key a = k)) =
      l.filter (fun a => decide (key a = k)) := by
  induction l with
  | nil => rfl
  | cons x xs ih =>
    unfold sortByKey
    rw [filter_key_insertByKey, List.filter_cons, List.filter_cons, ih]

theorem keySorted_insertByKey {α : Type} (key : α → List Char) (x : α)
    {l : List α} (h : KeySorted key l) :
    KeySorted key (insertByKey key x l) := by
  induction l with
  | nil => exact List.pairwise_singleton _ _
  | cons y ys ih =>
    unfold insertByKey
    rcases List.pairwise_cons.mp h with ⟨hy, hys⟩
    split
    · rename_i hle
      refine List.pairwise_cons.mpr ⟨?_, h⟩
      intro b hb
      rcases List.mem_cons.mp hb with hb | hb
      · subst hb; exact hle
      · exact lexLe_trans hle (hy b hb)
    · rename_i hle
      refine List.pairwise_cons.mpr ⟨?_, ih hys⟩
      intro b hb
      have hmem : b = x ∨ b ∈ ys :=
        List.mem_cons.mp ((insertByKey_perm key x ys).mem_iff.mp hb)
      rcases hmem with hb' | hb'
      · subst hb'
        rcases lexLe_total (key b) (key y) with h' | h'
        · exact absurd h' hle
        · exact h'
      · exact hy b hb'

theorem keySorted_sortByKey {α : Type} (key : α → List Char) (l : List α) :
    KeySorted key (sortByKey key l) := by
  induction l with
  | nil => exact List.Pairwise.nil
  | cons x xs ih => exact keySorted_insertByKey key x ih

theorem groupByKey_flatten {α : Type} (key : α → List Char) (l : List α) :
    ((groupByKey key l).map Prod.snd).flatten = l := by
  induction l with
  | nil => rfl
  | cons x xs ih =>
    cases hG : groupByKey key xs with
    | nil =>
      rw [hG] at ih
      simp only [List.map_nil, List.flatten_nil] at ih
      simp [groupByKey, hG, ← ih]
    | cons p rest =>
      rw [hG] at ih
      obtain ⟨k, g⟩ := p
      by_cases hk : key x = k
      · simp only [groupByKey, hG, if_pos hk]
        simp only [List.map_cons, List.flatten_cons] at ih ⊢
        rw [← ih]
        rfl
      · simp only [groupByKey, hG, if_neg hk]
        simp only [List.map_cons, List.flatten_cons] at ih ⊢
        rw [ih]
        rfl

theorem groupByKey_elem_key {α : Type} (key : α → List Char) {l : List α}
    {k : List Char} {g : List α} (hg : (k, g) ∈ groupByKey key l) :
    ∀ a ∈ g, key a = k := by
  induction l generalizing k g with
  | nil => simp [groupByKey] at hg
  | cons x xs ih =>
    cases hG : groupByKey key xs with
    | nil =>
      simp only [groupByKey, hG, List.mem_singleton, Prod.mk.injEq] at hg
      obtain ⟨hk, hgg⟩ := hg
      subst hk; subst hgg
      intro a ha
      simp only [List.mem_singleton] at ha
      subst ha; rfl
    | cons p rest =>
      obtain ⟨k0, g0⟩ := p
      by_cases hk : key x = k0
      · simp only [groupByKey, hG, if_pos hk] at hg
        rcases List.mem_cons.mp hg with hg | hg
        · injection hg with h1 h2
          subst h1; subst h2
          intro a ha
          rcases List.mem_cons.mp ha with ha | ha
          · subst ha; exact hk
          · exact ih (hG ▸ List.mem_cons_self _ _) a ha
        · exact ih (hG ▸ List.mem_cons_of_mem _ hg)
      · simp only [groupByKey, hG, if_neg hk] at hg
        rcases List.mem_cons.mp hg with hg | hg
        · injection hg with h1 h2
          subst h1; subst h2
          intro a ha
          simp only [List.mem_singleton] at ha
          subst ha; rfl
        · exact ih (hG ▸ hg)

theorem groupByKey_elem_mem {α : Type} (key : α → List Char) {l : List α}
    {k : List Char} {g : List α} (hg : (k, g) ∈ groupByKey key l) :
    ∀ a ∈ g, a ∈ l := by
  intro a ha
  have hmem : a ∈ ((groupByKey key l).map Prod.snd).flatten := by
    rw [List.mem_flatten]
    exact ⟨g, List.mem_map.mpr ⟨(k, g), hg, rfl⟩, ha⟩
  rwa [groupByKey_flatten] at hmem

theorem groupByKey_group_ne_nil {α : Type} (key : α → List Char) {l : List α}
    {k : List Char} {g : List α} (hg : (k, g) ∈ groupByKey key l) :
    ∃ a, a ∈ g := by
  induction l generalizing k g with
  | nil => simp [groupByKey] at hg
  | cons x xs ih =>
    cases hG : groupByKey key xs with
    | nil =>
      simp only [groupByKey, hG, List.mem_singleton, Prod.mk.injEq] at hg
      exact ⟨x, hg.2 ▸ List.mem_singleton.mpr rfl⟩
    | cons p rest =>
      obtain ⟨k0, g0⟩ := p
      by_cases hk : key x = k0
      · simp only [groupByKey, hG, if_pos hk] at hg
        rcases List.mem_cons.mp hg with hg | hg
        · injection hg with h1 h2
          exact ⟨x, h2 ▸ List.mem_cons_self _ _⟩
        · exact ih (hG ▸ List.mem_cons_of_mem _ hg)
      · simp only [groupByKey, hG, if_neg hk] at hg
        rcases List.mem_cons.mp hg with hg | hg
        · injection hg with h1 h2
          exact ⟨x, h2 ▸ List.mem_singleton.mpr rfl⟩
        · exact ih (hG ▸ hg)

theorem groupByKey_head_key {α : Type} (key : α → List Char) (x : α)
    (xs : List α) :
    ∃ g rest, groupByKey key (x :: xs) = (key x, g) :: rest := by
  cases hG : groupByKey key xs with
  | nil => exact ⟨[x], [], by simp [groupByKey, hG]⟩
  | cons p rest =>
    obtain ⟨k0, g0⟩ := p
    by_cases hk : key x = k0
    · exact ⟨x :: g0, rest, by simp [groupByKey, hG, if_pos hk, hk]⟩
    · exact ⟨[x], (k0, g0) :: rest, by simp [groupByKey, hG, if_neg hk]⟩

theorem groupByKey_keys_distinct {α : Type} (key : α → List Char)
    {l : List α} (h : KeySorted key l) :
    (groupByKey key l).Pairwise (fun p q => p.1 ≠ q.1) := by
  induction l with
  | nil => exact List.Pairwise.nil
  | cons x xs ih =>
    rcases List.pairwise_cons.mp h with ⟨hx, hxs⟩
    have IH := ih hxs
    cases hG : groupByKey key xs with
    | nil => simp [groupByKey, hG]
    | cons p rest =>
      rw [hG] at IH
      obtain ⟨k0, g0⟩ := p
      by_cases hk : key x = k0
      · simp only [groupByKey, hG, if_pos hk]
        rcases List.pairwise_cons.mp IH with ⟨hhd, hrest⟩
        exact List.pairwise_cons.mpr ⟨hhd, hrest⟩
      · simp only [groupByKey, hG, if_neg hk]
        refine List.pairwise_cons.mpr ⟨?_, IH⟩
        intro q hq
        show key x ≠ q.1
        -- `q` is a group of `xs`; derive a contradiction from `key x = q.1`.
        intro hxq
        have hq2 : (q.1, q.2) ∈ groupByKey key xs := by
          rw [hG]; rwa [Prod.mk.eta]
        obtain ⟨a, ha⟩ := groupByKey_group_ne_nil key hq2
        have haq : key a = q.1 := groupByKey_elem_key key hq2 a ha
        have haxs : a ∈ xs := groupByKey_elem_mem key hq2 a ha
        -- `xs` is nonempty and its head has key `k0`.
        cases xs with
        | nil => simp [groupByKey] at hG
        | cons x0 t =>
          obtain ⟨g', rest', hhead⟩ := groupByKey_head_key key x0 t
          rw [hG] at hhead
          have hk0 : k0 = key x0 := by
            rw [List.cons.injEq, Prod.mk.injEq] at hhead
            exact hhead.1.1
          -- key x ≤ k0 (x before x0), and k0 ≤ key a = q.1 = key x.
          have h1 : lexLe (key x) k0 = true := by
            rw [hk0]; exact hx x0 (List.mem_cons_self x0 t)
          have h2 : lexLe k0 (key x) = true := by
            rcases List.mem_cons.mp haxs with hax0 | hat
            · have hkx : k0 = key x := by
                rw [hk0, ← hax0, haq, ← hxq]
              rw [hkx]
              exact lexLe_refl _
            · have hle := (List.pairwise_cons.mp hxs).1 a hat
              rw [hk0, hxq, ← haq]
              exact hle
          exact hk (lexLe_antisymm h1 h2)

theorem flatten_filter_single {α : Type} (key : α → List Char) (k : List Char)
    (G : List (List Char × List α)) (g : List α)
    (hpair : G.Pairwise (fun p q => p.1 ≠ q.1))
    (hkeys : ∀ p ∈ G, ∀ a ∈ p.2, key a = p.1)
    (hmem : (k, g) ∈ G) :
    ((G.map Prod.snd).flatten).filter (fun a => decide (key a = k)) = g := by
  induction G with
  | nil => simp at hmem
  | cons p0 G' ih =>
    obtain ⟨k0, g0⟩ := p0
    rcases List.pairwise_cons.mp hpair with ⟨hhd, hP'⟩
    simp only [List.map_cons, List.flatten_cons, List.filter_append]
    rcases List.mem_cons.mp hmem with heq | hmem'
    · have hk' : k = k0 := congrArg Prod.fst heq
      have hg' : g = g0 := congrArg Prod.snd heq
      subst hk'
      subst hg'
      have hg0 : g.filter (fun a => decide (key a = k)) = g := by
        rw [List.filter_eq_self]
        intro a ha
        exact decide_eq_true (hkeys (k, g) (List.mem_cons_self _ _) a ha)
      have hrest : ((G'.map Prod.snd).flatten).filter
          (fun a => decide (key a = k)) = [] := by
        rw [List.filter_eq_nil_iff]
        intro a ha
        rw [List.mem_flatten] at ha
        obtain ⟨gl, hgl, hagl⟩ := ha
        obtain ⟨q, hq, hql⟩ := List.mem_map.mp hgl
        have hkey : key a = q.1 := by
          rw [← hql] at hagl
          exact hkeys q (List.mem_cons_of_mem _ hq) a hagl
        have hne : k ≠ q.1 := hhd q hq
        simp only [decide_eq_true_eq]
        rw [hkey]
        exact fun h => hne h.symm
      rw [hg0, hrest, List.append_nil]
    · have hk0ne : k0 ≠ k := hhd (k, g) hmem'
      have hg0 : g0.filter (fun a => decide (key a = k)) = [] := by
        rw [List.filter_eq_nil_iff]
        intro a ha
        have hkey : key a = k0 := hkeys (k0, g0) (List.mem_cons_self _ _) a ha
        simp only [decide_eq_true_eq]
        rw [hkey]
        exact fun h => hk0ne h
      rw [hg0, List.nil_append]
      exact ih hP' (fun p hp => hkeys p (List.mem_cons_of_mem _ hp)) hmem'

/-- A group produced by grouping the stably key-sorted list carries exactly
the elements of the original list with that key, in original order. -/
theorem groupByKey_sortByKey_eq_filter {α : Type} (key : α → List Char)
    (l : List α) {k : List Char} {g : List α}
    (hg : (k, g) ∈ groupByKey key (sortByKey key l)) :
    g = l.filter (fun a => decide (key a = k)) := by
  have hs := keySorted_sortByKey key l
  have hd := groupByKey_keys_distinct key hs
  have hkeys : ∀ p ∈ groupByKey key (sortByKey key l), ∀ a ∈ p.2, key a = p.1 := by
    intro p hp a ha
    exact groupByKey_elem_key key
      (show (p.1, p.2) ∈ groupByKey key (sortByKey key l) by rwa [Prod.mk.eta]) a ha
  have hmain := flatten_filter_single key k _ g hd hkeys hg
  rw [groupByKey_flatten, filter_key_sortByKey] at hmain
  exact hmain.symm

/-! ## The run (`convert_dmzj_txts_to_pdf`)

Inputs of the embedding:

* `root`, `out` — the root/output directories as component paths;
* `completed : List FsPath` — the discovered `.txt` paths in the order
  `as_completed` yields their futures (thread-scheduling nondeterminism is
  this parameter; it is a permutation of the discovery list);
* `docOf : FsPath → Option (List P)` — the outcome of `_txt2pdf_one` for
  each fragment: `some pages` on success (`P` is the abstract page type of
  the external PDF library), `none` when the conversion raised;
* `gl : Int` — `group_level`; `keep : Bool` — `keep_fragments`.
-/

/-- `p.name` (final component). -/
def lastName (p : FsPath) : String := p.getLastD ""

/-- `fnmatch`-style match of a file name against the `rglob` pattern
`*.txt` (default POSIX semantics: case-sensitive). -/
def hasTxtExt (s : String) : Bool :=
  s.data.drop (s.data.length - 4) == ".txt".data

/-- `[p for p in root.rglob("*.txt")]`, over the files below the root. -/
def discoverTxts (files : List FsPath) : List FsPath :=
  files.filter (fun f => hasTxtExt (lastName f))

/-- `PurePath.with_suffix(".pdf")` on a file name: replace the extension
after the last dot when there is one (not leading, not trailing),
otherwise append `.pdf`. -/
def withPdf (name : List Char) : List Char :=
  if (name.reverse.takeWhile (fun c => c != '.')).length = name.length then
    name ++ ".pdf".data
  else if (name.reverse.takeWhile (fun c => c != '.')).isEmpty then
    name ++ ".pdf".data
  else if (name.reverse.drop
      ((name.reverse.takeWhile (fun c => c != '.')).length + 1)).isEmpty then
    name ++ ".pdf".data
  else
    (name.reverse.drop
      ((name.reverse.takeWhile (fun c => c != '.')).length + 1)).reverse
      ++ ".pdf".data

/-- `out / txt.relative_to(root).with_suffix(".pdf")`. -/
def fragPdfPath (root out : FsPath) (txt : FsPath) : FsPath :=
  out ++ (txt.drop root.length).dropLast ++
    [String.mk (withPdf (lastName txt).data)]

/-- `frag_pdf_of_txt`: the success entries, in completion (insertion)
order, paired with their documents. -/
def runSuccs {P : Type} (completed : List FsPath)
    (docOf : FsPath → Option (List P)) : List (FsPath × List P) :=
  completed.filterMap (fun t => (docOf t).map (fun d => (t, d)))

/-- `groupby(sorted(frag_pdf_of_txt, key=_folder_key), key=_folder_key)`. -/
def mergeGroups {P : Type} (gl : Int) (succs : List (FsPath × List P)) :
    List (List Char × List (FsPath × List P)) :=
  groupByKey (fun td => fragKey gl.toNat td.1)
    (sortByKey (fun td => fragKey gl.toNat td.1) succs)

/-- The merge stage: one `(key, merged page sequence)` per group, guarded
by `1 <= group_level <= 2`.  A merged document's pages are the
concatenation of its group's members' pages in group order. -/
def mergeOutputs {P : Type} (gl : Int) (completed : List FsPath)
    (docOf : FsPath → Option (List P)) : List (List Char × List P) :=
  if 1 ≤ gl ∧ gl ≤ 2 then
    (mergeGroups gl (runSuccs completed docOf)).map
      (fun kg => (kg.1, (kg.2.map Prod.snd).flatten))
  else []

/-- `out / f"{key}.pdf"` for each merged document. -/
def mergedPdfPaths {P : Type} (out : FsPath) (gl : Int)
    (completed : List FsPath) (docOf : FsPath → Option (List P)) :
    List FsPath :=
  (mergeOutputs gl completed docOf).map
    (fun kd => out ++ [String.mk kd.1 ++ ".pdf"])

/-- The list returned to the caller: per-fragment successes (in completion
order) plus merged documents, replaced by the merged documents alone when
cleanup ran (`not keep_fragments and merged_paths`). -/
def runCreated {P : Type} (root out : FsPath) (completed : List FsPath)
    (docOf : FsPath → Option (List P)) (gl : Int) (keep : Bool) :
    List FsPath :=
  if !keep && !(mergedPdfPaths out gl completed docOf).isEmpty then
    mergedPdfPaths out gl completed docOf
  else
    (runSuccs completed docOf).map (fun td => fragPdfPath root out td.1) ++
      mergedPdfPaths out gl completed docOf

/-- Observable events of one run, in program order. -/
inductive RunEvent (P : Type) where
  | convDone (f : FsPath) (r : Option (List P)) : RunEvent P
  | mergeWrite (key : List Char) (pages : List P) : RunEvent P
deriving DecidableEq

/-- Is the event the completion of a fragment conversion? -/
def isConvDone {P : Type} : RunEvent P → Bool
  | .convDone _ _ => true
  | .mergeWrite _ _ => false

/-- Is the event the write of a merged document? -/
def isMergeWrite {P : Type} : RunEvent P → Bool
  | .convDone _ _ => false
  | .mergeWrite _ _ => true

/-- The run's event trace: the `as_completed` loop drains every conversion
future (the `with` block joins every worker), and only then does stage 2
write merged documents. -/
def runTrace {P : Type} (gl : Int) (completed : List FsPath)
    (docOf : FsPath → Option (List P)) : List (RunEvent P) :=
  completed.map (fun f => RunEvent.convDone f (docOf f)) ++
    (mergeOutputs gl completed docOf).map
      (fun kd => RunEvent.mergeWrite kd.1 kd.2)

/-- A path rendered as one string (for comparing fragment paths). -/
def pathChars : FsPath → List Char
  | [] => []
  | [s] => s.data
  | s :: rest => s.data ++ '/' :: pathChars rest

/-- Conversion outcomes of a two-fragment run used on claim C1: both
fragments of folder `g` succeed; `b.txt`'s conversion finishes first. -/
def cexDocOf : FsPath → Option (List Nat) := fun t =>
  if t = ["r", "g", "b.txt"] then some [1]
  else if t = ["r", "g", "a.txt"] then some [2]
  else none

/-- C1 counterexample: `sorted(frag_pdf_of_txt, key=_folder_key)` sorts by
the folder key only, and Python's stable sort leaves equal keys in dict
insertion order — the `as_completed` completion order, not path order.
When `b.txt` finishes before `a.txt`, the merged document is `[1, 2]`
(pages of `b.txt` first), while the claim demands `[2, 1]` (pages of the
lexicographically smaller path `a.txt` first, as the path-sorted
concatenation in the second conjunct shows). -/
theorem merge_tie_order_counterexample :
    mergeOutputs 1 [["r", "g", "b.txt"], ["r", "g", "a.txt"]] cexDocOf =
      [("g".data, [1, 2])] ∧
    ((sortByKey (fun td => pathChars td.1)
        (runSuccs [["r", "g", "b.txt"], ["r", "g", "a.txt"]] cexDocOf)).map
          Prod.snd).flatten = [2, 1] ∧
    ([1, 2] : List Nat) ≠ [2, 1] := by
  refine ⟨by decide, by decide, by decide⟩

/-- C1 amended: each merged document's page sequence is the concatenation
of its group's successfully converted fragments' pages in key-sorted
order with ties broken by *completion order* (the order the conversions
finished, i.e. insertion order into the success mapping) — not by sorted
fragment path. -/
theorem merged_doc_is_completion_order_concat {P : Type} (gl : Int)
    (completed : List FsPath) (docOf : FsPath → Option (List P))
    (k : List Char) (d : List P)
    (hmem : (k, d) ∈ mergeOutputs gl completed docOf) :
    d = (((runSuccs completed docOf).filter
        (fun td => decide (fragKey gl.toNat td.1 = k))).map Prod.snd).flatten := by
  unfold mergeOutputs at hmem
  split at hmem
  · obtain ⟨kg, hkg, heq⟩ := List.mem_map.mp hmem
    have hk : kg.1 = k := congrArg Prod.fst heq
    have hpages : (kg.2.map Prod.snd).flatten = d := congrArg Prod.snd heq
    have hgrp : (kg.1, kg.2) ∈
        groupByKey (fun td => fragKey gl.toNat td.1)
          (sortByKey (fun td => fragKey gl.toNat td.1)
            (runSuccs completed docOf)) := by
      rw [Prod.mk.eta]
      exact hkg
    have hfil := groupByKey_sortByKey_eq_filter
      (fun td => fragKey gl.toNat td.1) (runSuccs completed docOf) hgrp
    rw [← hpages, hfil, hk]
  · simp at hmem

theorem merged_doc_is_completion_order_concat_witness :
    (("g".data, ([1, 2] : List Nat)) ∈
      mergeOutputs 1 [["r", "g", "b.txt"], ["r", "g", "a.txt"]] cexDocOf) ∧
    ([1, 2] : List Nat) =
      (((runSuccs [["r", "g", "b.txt"], ["r", "g", "a.txt"]] cexDocOf).filter
        (fun td => decide (fragKey (1 : Int).toNat td.1 = "g".data))).map
          Prod.snd).flatten :=
  ⟨by decide,
   merged_doc_is_completion_order_concat 1
     [["r", "g", "b.txt"], ["r", "g", "a.txt"]] cexDocOf "g".data [1, 2]
     (by decide)⟩

theorem runEvent_not_conv_and_merge {P : Type} (x : RunEvent P) :
    ¬ (isConvDone x = true ∧ isMergeWrite x = true) := by
  cases x <;> simp [isConvDone, isMergeWrite]

/-- C2: in the run trace, every merged-document write is strictly after
every conversion completion: the `as_completed` loop (and the executor's
`with` block) drains all conversion futures before stage 2 begins, so no
merge reads a document whose conversion has not completed. -/
theorem merge_strictly_after_conversions {P : Type} (gl : Int)
    (completed : List FsPath) (docOf : FsPath → Option (List P))
    (i j : Nat) (e e' : RunEvent P)
    (hi : (runTrace gl completed docOf)[i]? = some e)
    (hmrg : isMergeWrite e = true)
    (hj : (runTrace gl completed docOf)[j]? = some e')
    (hcv : isConvDone e' = true) :
    j < i := by
  have hAconv : ∀ x ∈ completed.map
      (fun f => RunEvent.convDone (P := P) f (docOf f)), isConvDone x = true := by
    intro x hx
    obtain ⟨f, _, hfx⟩ := List.mem_map.mp hx
    rw [← hfx]
    rfl
  have hBmrg : ∀ x ∈ (mergeOutputs gl completed docOf).map
      (fun kd => RunEvent.mergeWrite (P := P) kd.1 kd.2), isMergeWrite x = true := by
    intro x hx
    obtain ⟨kd, _, hkx⟩ := List.mem_map.mp hx
    rw [← hkx]
    rfl
  have hlenA : (completed.map
      (fun f => RunEvent.convDone (P := P) f (docOf f))).length ≤ i := by
    by_contra hlt
    push_neg at hlt
    unfold runTrace at hi
    rw [List.getElem?_append_left hlt] at hi
    have hmemA : e ∈ completed.map (fun f => RunEvent.convDone (P := P) f (docOf f)) :=
      List.mem_iff_getElem?.mpr ⟨i, hi⟩
    exact runEvent_not_conv_and_merge e ⟨hAconv e hmemA, hmrg⟩
  have hjlt : j < (completed.map
      (fun f => RunEvent.convDone (P := P) f (docOf f))).length := by
    by_contra hge
    push_neg at hge
    unfold runTrace at hj
    rw [List.getElem?_append_right hge] at hj
    have hmemB : e' ∈ (mergeOutputs gl completed docOf).map
        (fun kd => RunEvent.mergeWrite (P := P) kd.1 kd.2) :=
      List.mem_iff_getElem?.mpr ⟨j - (completed.map
        (fun f => RunEvent.convDone (P := P) f (docOf f))).length, hj⟩
    exact runEvent_not_conv_and_merge e' ⟨hcv, hBmrg e' hmemB⟩
  omega

/-- Every fragment of this run converts successfully to the one-page
document `[0]`. -/
def wDocOf : FsPath → Option (List Nat) := fun _ => some [0]

theorem merge_strictly_after_conversions_witness :
    (runTrace 1 [["r", "g", "a.txt"]] wDocOf)[1]? =
      some (RunEvent.mergeWrite "g".data [0]) ∧
    (runTrace 1 [["r", "g", "a.txt"]] wDocOf)[0]? =
      some (RunEvent.convDone ["r", "g", "a.txt"] (some [0])) ∧
    (0 : Nat) < 1 :=
  ⟨by decide, by decide,
   merge_strictly_after_conversions 1 [["r", "g", "a.txt"]] wDocOf 1 0
     (RunEvent.mergeWrite "g".data [0])
     (RunEvent.convDone ["r", "g", "a.txt"] (some [0]))
     (by decide) (by decide) (by decide) (by decide)⟩

theorem count_eq_one_of_nodup_mem {α : Type} [BEq α] [LawfulBEq α]
    {l : List α} {a : α} (hnd : l.Nodup) (ha : a ∈ l) : l.count a = 1 := by
  induction l with
  | nil => simp at ha
  | cons x xs ih =>
    rw [List.count_cons]
    rcases List.mem_cons.mp ha with h | h
    · subst h
      have hnotin : a ∉ xs := (List.nodup_cons.mp hnd).1
      have h0 : xs.count a = 0 := List.count_eq_zero_of_not_mem hnotin
      simp [h0]
    · have hx : x ∉ xs := (List.nodup_cons.mp hnd).1
      have hne : (x == a) = false := by
        have hxa : x ≠ a := fun hxa => hx (hxa ▸ h)
        simp [hxa]
      rw [ih (List.nodup_cons.mp hnd).2 h, hne]
      simp

theorem length_filterMap_add_length_filter_none {α β : Type}
    (g : α → Option β) (l : List α) :
    (l.filterMap g).length + (l.filter (fun a => (g a).isNone)).length =
      l.length := by
  induction l with
  | nil => rfl
  | cons x xs ih =>
    cases hx : g x with
    | none =>
      rw [List.filterMap_cons, List.filter_cons]
      simp [hx]
      omega
    | some b =>
      rw [List.filterMap_cons, List.filter_cons]
      simp [hx]
      omega

theorem runSuccs_map_fst {P : Type} (completed : List FsPath)
    (docOf : FsPath → Option (List P)) :
    (runSuccs completed docOf).map Prod.fst =
      completed.filter (fun t => (docOf t).isSome) := by
  induction completed with
  | nil => rfl
  | cons x xs ih =>
    unfold runSuccs at ih ⊢
    rw [List.filterMap_cons, List.filter_cons]
    cases hx : docOf x with
    | none => simpa [hx] using ih
    | some d => simpa [hx] using ih

theorem mem_runSuccs {P : Type} {completed : List FsPath}
    {docOf : FsPath → Option (List P)} {td : FsPath × List P} :
    td ∈ runSuccs completed docOf ↔
      td.1 ∈ completed ∧ docOf td.1 = some td.2 := by
  unfold runSuccs
  rw [List.mem_filterMap]
  constructor
  · rintro ⟨t, ht, hmap⟩
    cases hdoc : docOf t with
    | none =>
      rw [hdoc] at hmap
      exact Option.noConfusion hmap
    | some d =>
      rw [hdoc] at hmap
      have heq : (t, d) = td := Option.some.inj hmap
      rw [← heq]
      exact ⟨ht, hdoc⟩
  · rintro ⟨hmem, hdoc⟩
    refine ⟨td.1, hmem, ?_⟩
    rw [hdoc]
    rfl

/-- C3: when exactly one fragment of the batch fails, the run still
completes with the expected shape: the conversion-result mapping has
exactly the one failure entry, `N − 1` success entries, every other
fragment is recorded exactly once with its own document, and every merge
group draws only on the successes, never on the failed fragment. -/
theorem single_failure_isolated {P : Type} (txts completed : List FsPath)
    (docOf : FsPath → Option (List P)) (f : FsPath)
    (hperm : completed.Perm txts) (hnd : txts.Nodup)
    (hf : f ∈ txts) (hfail : docOf f = none)
    (honly : ∀ g ∈ txts, docOf g = none → g = f) :
    (completed.map (fun t => (t, docOf t))).filter (fun r => r.2.isNone) =
        [(f, none)] ∧
    (runSuccs completed docOf).length = txts.length - 1 ∧
    (∀ g ∈ txts, g ≠ f →
      ((runSuccs completed docOf).map Prod.fst).count g = 1) ∧
    (∀ (gl : Int) (k : List Char) (grp : List (FsPath × List P)),
      (k, grp) ∈ mergeGroups gl (runSuccs completed docOf) →
      ∀ td ∈ grp, td.1 ≠ f ∧ docOf td.1 = some td.2) := by
  have hcount : completed.count f = 1 := by
    rw [List.count_eq_countP, hperm.countP_eq, ← List.count_eq_countP]
    exact count_eq_one_of_nodup_mem hnd hf
  have hfailfilter : completed.filter (fun t => (docOf t).isNone) = [f] := by
    have hcongr : completed.filter (fun t => (docOf t).isNone) =
        completed.filter (fun t => t == f) := by
      apply List.filter_congr
      intro t ht
      by_cases htf : t = f
      · subst htf
        simp [hfail]
      · have : docOf t ≠ none := fun h =>
          htf (honly t (hperm.mem_iff.mp ht) h)
        cases hdoc : docOf t with
        | none => exact absurd hdoc this
        | some d => simp [hdoc, htf]
    rw [hcongr, List.filter_beq, hcount, List.replicate_one]
  refine ⟨?_, ?_, ?_, ?_⟩
  · rw [List.filter_map]
    have hcomp : ((fun r : FsPath × Option (List P) => r.2.isNone) ∘
        (fun t => (t, docOf t))) = fun t => (docOf t).isNone := rfl
    rw [hcomp, hfailfilter, List.map_cons, List.map_nil, hfail]
  · have hlen := length_filterMap_add_length_filter_none
      (fun t => (docOf t).map (fun d => (t, d))) completed
    have hnone : (completed.filter
        (fun t => ((docOf t).map (fun d => (t, d))).isNone)).length = 1 := by
      have hsame : completed.filter
          (fun t => ((docOf t).map (fun d => (t, d))).isNone) =
          completed.filter (fun t => (docOf t).isNone) := by
        apply List.filter_congr
        intro t _
        cases hdoc : docOf t <;> simp [hdoc]
      rw [hsame, hfailfilter]
      rfl
    unfold runSuccs
    rw [hperm.length_eq] at hlen
    omega
  · intro g hg hgf
    rw [runSuccs_map_fst]
    have hsome : (docOf g).isSome = true := by
      cases hdoc : docOf g with
      | none => exact absurd (honly g hg hdoc) hgf
      | some d => rfl
    rw [List.count_eq_countP, List.countP_filter]
    have hcongr : completed.countP (fun x => (x == g) && (docOf x).isSome) =
        completed.countP (fun x => x == g) := by
      apply List.countP_congr
      intro x _
      constructor
      · intro hx
        exact (Bool.and_eq_true _ _ |>.mp hx).1
      · intro hx
        have hxg : x = g := by simpa using hx
        subst hxg
        simp [hsome]
    rw [hcongr, hperm.countP_eq, ← List.count_eq_countP]
    exact count_eq_one_of_nodup_mem hnd hg
  · intro gl k grp hgrp td htd
    have h1 : td ∈ sortByKey (fun td => fragKey gl.toNat td.1)
        (runSuccs completed docOf) :=
      groupByKey_elem_mem _ hgrp td htd
    have h2 : td ∈ runSuccs completed docOf :=
      (sortByKey_perm _ _).mem_iff.mp h1
    have h3 := mem_runSuccs.mp h2
    refine ⟨?_, h3.2⟩
    intro hfeq
    rw [hfeq, hfail] at h3
    exact Option.noConfusion h3.2

/-- Conversion outcomes for the C3 witness run: `b.txt` fails, `a.txt`
succeeds with the one-page document `[7]`. -/
def cex3DocOf : FsPath → Option (List Nat) := fun t =>
  if t = ["r", "g", "a.txt"] then some [7] else none

theorem single_failure_isolated_witness :
    (([["r", "g", "b.txt"], ["r", "g", "a.txt"]].map
        (fun t => (t, cex3DocOf t))).filter (fun r => r.2.isNone) =
      [(["r", "g", "b.txt"], none)]) ∧
    (runSuccs [["r", "g", "b.txt"], ["r", "g", "a.txt"]] cex3DocOf).length = 1 ∧
    ((runSuccs [["r", "g", "b.txt"], ["r", "g", "a.txt"]] cex3DocOf).map
        Prod.fst).count ["r", "g", "a.txt"] = 1 := by
  have h := single_failure_isolated
    [["r", "g", "a.txt"], ["r", "g", "b.txt"]]
    [["r", "g", "b.txt"], ["r", "g", "a.txt"]]
    cex3DocOf ["r", "g", "b.txt"]
    (by decide) (by decide) (by decide) (by decide) (by decide)
  exact ⟨h.1, h.2.1, h.2.2.1 ["r", "g", "a.txt"] (by decide) (by decide)⟩

theorem mergeOutputs_nil {P : Type} (gl : Int)
    (docOf : FsPath → Option (List P)) :
    mergeOutputs gl [] docOf = [] := by
  unfold mergeOutputs
  split <;> rfl

/-- C9: the returned list is the per-fragment success paths (completion
order) followed by the merged paths — except that when cleanup ran
(cleanup = merging produced at least one document and keeping fragments
was not requested) it is the merged paths alone; and a run with zero
fragments returns the empty list. -/
theorem run_manifest {P : Type} (root out : FsPath)
    (txts completed : List FsPath) (docOf : FsPath → Option (List P))
    (gl : Int) (keep : Bool) (hperm : completed.Perm txts) :
    (runCreated root out completed docOf gl keep =
      if keep = false ∧ mergedPdfPaths out gl completed docOf ≠ [] then
        mergedPdfPaths out gl completed docOf
      else
        (runSuccs completed docOf).map (fun td => fragPdfPath root out td.1) ++
          mergedPdfPaths out gl completed docOf) ∧
    (txts = [] → runCreated root out completed docOf gl keep = []) := by
  constructor
  · unfold runCreated
    cases keep with
    | true => simp
    | false =>
      cases hE : (mergedPdfPaths out gl completed docOf).isEmpty with
      | true =>
        have h0 : mergedPdfPaths out gl completed docOf = [] :=
          List.isEmpty_iff.mp hE
        simp [hE, h0]
      | false =>
        have h0 : mergedPdfPaths out gl completed docOf ≠ [] := by
          intro hc
          rw [hc] at hE
          simp at hE
        simp [hE, h0]
  · intro h0
    subst h0
    have hc : completed = [] := hperm.eq_nil
    subst hc
    have hm : mergedPdfPaths out gl [] docOf = [] := by
      unfold mergedPdfPaths
      rw [mergeOutputs_nil]
      rfl
    unfold runCreated
    rw [hm]
    simp [runSuccs]

theorem run_manifest_witness :
    runCreated ["r"] ["o"] [["r", "g", "a.txt"]] wDocOf 1 false =
      [["o", "g.pdf"]] := by
  have h := (run_manifest ["r"] ["o"] [["r", "g", "a.txt"]]
    [["r", "g", "a.txt"]] wDocOf 1 false (by decide)).1
  rw [h]
  decide

/-! ## Fragment discovery (`root.rglob("*.txt")`)

`rglob` matches each entry name against the pattern `*.txt` with
`fnmatch`-style matching; under the default POSIX semantics of `pathlib`
this comparison is case-sensitive, so exactly the names ending in the
four characters `.txt` match. -/

theorem hasTxtExt_iff (s : String) :
    hasTxtExt s = true ↔ ∃ pre, s.data = pre ++ ".txt".data := by
  unfold hasTxtExt
  constructor
  · intro h
    have heq : s.data.drop (s.data.length - 4) = ".txt".data := by
      exact eq_of_beq h
    refine ⟨s.data.take (s.data.length - 4), ?_⟩
    conv_lhs => rw [← List.take_append_drop (s.data.length - 4) s.data]
    rw [heq]
  · rintro ⟨pre, hpre⟩
    rw [hpre]
    have h4 : (".txt".data).length = 4 := rfl
    have hlen : (pre ++ ".txt".data).length - 4 = pre.length := by
      rw [List.length_append, h4]
      omega
    rw [hlen, List.drop_left]
    exact beq_self_eq_true _

/-- C5 counterexample: a file named `A.TXT` has a case-insensitively
`.txt`-equivalent extension, yet `rglob("*.txt")` (case-sensitive under
the default POSIX matching semantics) does not treat it as a fragment:
the discovery list is empty. -/
theorem txt_match_case_sensitive_counterexample :
    discoverTxts [["r", "A.TXT"]] = [] := by decide

theorem withPdf_txt (stem : List Char) (hne : stem ≠ []) :
    withPdf (stem ++ ".txt".data) = stem ++ ".pdf".data := by
  unfold withPdf
  have hrev : (stem ++ ".txt".data).reverse =
      't' :: 'x' :: 't' :: '.' :: stem.reverse := by
    rw [List.reverse_append]
    rfl
  rw [hrev]
  have htw : ('t' :: 'x' :: 't' :: '.' :: stem.reverse).takeWhile
      (fun c => c != '.') = ['t', 'x', 't'] := rfl
  rw [htw]
  have h4 : (".txt".data).length = 4 := rfl
  have c1 : ¬ ((['t', 'x', 't'] : List Char).length =
      (stem ++ ".txt".data).length) := by
    rw [List.length_append, h4]
    intro hc
    have h3 : (['t', 'x', 't'] : List Char).length = 3 := rfl
    omega
  rw [if_neg c1]
  have c2 : ¬ ((['t', 'x', 't'] : List Char).isEmpty = true) := by decide
  rw [if_neg c2]
  have c3 : ¬ ((('t' :: 'x' :: 't' :: '.' :: stem.reverse).drop
      ((['t', 'x', 't'] : List Char).length + 1)).isEmpty = true) := by
    intro hc
    have hrevnil : stem.reverse.isEmpty = true := hc
    rw [List.isEmpty_iff, List.reverse_eq_nil_iff] at hrevnil
    exact hne hrevnil
  rw [if_neg c3]
  have hdrop : ('t' :: 'x' :: 't' :: '.' :: stem.reverse).drop
      ((['t', 'x', 't'] : List Char).length + 1) = stem.reverse := rfl
  rw [hdrop, List.reverse_reverse]

/-- C5 amended: a file below the root is treated as a fragment exactly
when its name ends in the four characters `.txt` — the comparison is
case-sensitive (`A.TXT` is skipped), not case-insensitive as claimed —
and each fragment's output document lands at the output root joined with
the fragment's root-relative path, extension replaced by `.pdf`. -/
theorem txt_discovery_and_placement (files : List FsPath) (f : FsPath)
    (root out : FsPath) :
    (f ∈ discoverTxts files ↔
      f ∈ files ∧ ∃ pre, (lastName f).data = pre ++ ".txt".data) ∧
    (∀ stem : List Char, (lastName f).data = stem ++ ".txt".data →
      stem ≠ [] →
      fragPdfPath root out f =
        out ++ (f.drop root.length).dropLast ++
          [String.mk (stem ++ ".pdf".data)]) := by
  constructor
  · unfold discoverTxts
    rw [List.mem_filter]
    exact and_congr_right (fun _ => hasTxtExt_iff (lastName f))
  · intro stem hstem hne
    unfold fragPdfPath
    rw [hstem, withPdf_txt stem hne]

theorem txt_discovery_and_placement_witness :
    ["r", "g", "ch 01.txt"] ∈ discoverTxts [["r", "g", "ch 01.txt"]] ∧
    fragPdfPath ["r"] ["o"] ["r", "g", "ch 01.txt"] =
      ["o", "g", "ch 01.pdf"] := by
  have h := txt_discovery_and_placement [["r", "g", "ch 01.txt"]]
    ["r", "g", "ch 01.txt"] ["r"] ["o"]
  constructor
  · exact h.1.mpr ⟨by decide, "ch 01".data, by decide⟩
  · have h2 := h.2 "ch 01".data (by decide) (by decide)
    rw [h2]
    decide

/-! ## The Encoding Resolver (`_detect_encoding` + lossy decode)

The Python codec machinery and `chardet` are external collaborators,
modelled by a `Codecs` oracle: `decode e raw` is `raw.decode(e)`
(`some` exactly when the entire buffer decodes), `chardetAvail` is
whether `import chardet` succeeds, `chardetDetect` is
`chardet.detect(raw)["encoding"]` (`none` models a `None` proposal), and
`decodeReplace e raw` is `raw.decode(e, errors="replace")`, which is
total — it never raises. -/

structure Codecs where
  decode : String → List Nat → Option String
  chardetAvail : Bool
  chardetDetect : List Nat → Option String
  decodeReplace : String → List Nat → String

/-- The fixed probe order of `_detect_encoding`. -/
def probeEncodings : List String := ["utf-8", "gbk", "big5", "utf-16"]

/-- The `for enc in (...)` probe loop: first codec that decodes the whole
buffer wins. -/
def probeLoop (C : Codecs) (raw : List Nat) : List String → Option String
  | [] => none
  | e :: rest =>
    match C.decode e raw with
    | some _ => some e
    | none => probeLoop C raw rest

/-- `_detect_encoding(raw)`. -/
def detectEncoding (C : Codecs) (raw : List Nat) : String :=
  match probeLoop C raw probeEncodings with
  | some e => e
  | none =>
    if C.chardetAvail then (C.chardetDetect raw).getD "utf-8" else "utf-8"

/-- The Encoding Resolver of `_txt2pdf_one`:
`raw.decode(_detect_encoding(raw), errors="replace")`.  A total function:
it returns a string for every byte buffer. -/
def resolveText (C : Codecs) (raw : List Nat) : String :=
  C.decodeReplace (detectEncoding C raw) raw

theorem probeLoop_eq_find (C : Codecs) (raw : List Nat) (l : List String) :
    probeLoop C raw l = l.find? (fun e => (C.decode e raw).isSome) := by
  induction l with
  | nil => rfl
  | cons e rest ih =>
    unfold probeLoop
    cases hd : C.decode e raw with
    | some s =>
      rw [List.find?_cons_of_pos _ (by rw [hd]; rfl)]
    | none =>
      rw [List.find?_cons_of_neg _ (by simp [hd]), ih]

/-- C4: the Encoding Resolver is total and follows the documented
strategy for every byte buffer and every behaviour of the external
codecs: it probes UTF-8, GBK, Big5, UTF-16 in that fixed order and
decodes (with character replacement) using the first codec that decodes
the entire buffer; when none does, it decodes with the statistical
guesser's proposal if the guesser is importable (falling back to UTF-8
when the proposal is `None`), and with UTF-8 otherwise.  Being a total
Lean function of the oracle, `resolveText` returns some string on every
input — including the empty buffer and buffers no probed codec accepts —
and never raises. -/
theorem encoding_resolver_spec (C : Codecs) (raw : List Nat) :
    (∀ e, probeEncodings.find? (fun e => (C.decode e raw).isSome) = some e →
      resolveText C raw = C.decodeReplace e raw) ∧
    (probeEncodings.find? (fun e => (C.decode e raw).isSome) = none →
      resolveText C raw = C.decodeReplace
        (if C.chardetAvail then (C.chardetDetect raw).getD "utf-8"
         else "utf-8") raw) := by
  constructor
  · intro e hfind
    unfold resolveText detectEncoding
    rw [probeLoop_eq_find, hfind]
  · intro hfind
    unfold resolveText detectEncoding
    rw [probeLoop_eq_find, hfind]

/-- A concrete codec oracle: UTF-8 accepts exactly the empty buffer, the
other probes always fail, `chardet` is unavailable, and the
replacement-mode decoder returns the codec name as a marker. -/
def wCodecs : Codecs where
  decode := fun e raw => if e = "utf-8" ∧ raw = [] then some "" else none
  chardetAvail := false
  chardetDetect := fun _ => none
  decodeReplace := fun e _ => e

theorem encoding_resolver_spec_witness :
    probeEncodings.find? (fun e => (wCodecs.decode e []).isSome) =
      some "utf-8" ∧
    resolveText wCodecs [] = wCodecs.decodeReplace "utf-8" [] :=
  ⟨by decide,
   (encoding_resolver_spec wCodecs []).1 "utf-8" (by decide)⟩
